import Mathlib

/-!
Verification of the metacall-playground pipeline specification against the
repository source.  The exported functions `multiply`, `reverse` and
`fibonacci` are embedded directly from `src/pipeline.js`; the pipeline
orchestration core (builder, execution engine, telemetry bus, statistics
aggregator) is not present under `src/`, so it is modelled from the spec.
-/

namespace MetacallPlayground

/-- Embedded from `src/pipeline.js`: `function multiply(a, b) { return a * b; }`.
JS numbers are modelled as integers. -/
def multiply (a b : Int) : Int := a * b

/-- Embedded from `src/pipeline.js`:
`function reverse(text) { return text.split('').reverse().join(''); }` —
splitting a string into its characters, reversing the list, and joining. -/
def reverse (text : String) : String := ⟨text.data.reverse⟩

/-- Embedded from `src/pipeline.js`:
`function fibonacci(n) { if (n <= 1) return n; return fibonacci(n - 1) + fibonacci(n - 2); }` -/
def fibonacci (n : Nat) : Nat :=
  if n ≤ 1 then n
  else fibonacci (n - 1) + fibonacci (n - 2)
termination_by n
decreasing_by
  all_goals omega

/-- Modelled from the spec: a binding source for a Step input —
`Literal | StepOutputRef(step_id)` (§3 Data model; the single output of a
step is its success value, so the output index is omitted). -/
inductive Binding
  | lit (v : Int)
  | ref (stepId : String)
deriving DecidableEq

/-- Modelled from the spec: the status part of a `StepResult` —
`Success(value) | Failure(error)`, plus the `Skipped` outcome recorded for
dependents of failed steps (§4.2). -/
inductive Status
  | success (v : Int)
  | failure (e : String)
  | skipped
deriving DecidableEq

/-- Modelled from the spec: a `CallCapability`
`{runtime_id, function_name, argument_schema}` together with the adapter
boundary `invoke(capability_descriptor, resolved_arguments) -> Result` (§6);
the argument schema is modelled by its arity over integer-valued slots. -/
structure CallCapability where
  runtime_id : String
  function_name : String
  arity : Nat
  invoke : List Int → Except String Int

/-- Modelled from the spec: a `Step`
`{id, capability, bindings}` (§3 Data model). -/
structure Step where
  id : String
  capability : CallCapability
  bindings : List Binding

/-- Modelled from the spec: a `ValidationError` detailing the offending step
ids and the reason (§4.1, §7). -/
structure ValidationError where
  offenders : List String
  reason : String
deriving DecidableEq

/-- Modelled from the spec: a validated `Pipeline`, an ordered collection of
Steps with insertion order preserved for deterministic default scheduling
(§3 Data model). -/
structure Pipeline where
  steps : List Step

/-- The step ids referenced by a step's `StepOutputRef` bindings. -/
def refsOf (s : Step) : List String :=
  s.bindings.filterMap (fun b => match b with | .lit _ => none | .ref r => some r)

/-- First reference of a step that does not name a previously declared id. -/
def firstBadRef (declared : List String) (s : Step) : Option String :=
  (refsOf s).find? (fun r => !(declared.contains r))

/-- Modelled from the spec: the Pipeline Builder's validation pass (§4.1),
applied in order per declared step: (a) step ids unique, (b) every
`StepOutputRef` names an existing, previously declared step id (forward
references rejected), (c) binding count matches the capability's declared
argument schema. -/
def validateSteps (declared : List String) : List Step → Option ValidationError
  | [] => none
  | s :: rest =>
    if declared.contains s.id then
      some ⟨[s.id], "duplicate step id"⟩
    else
      match firstBadRef declared s with
      | some r => some ⟨[s.id, r], "reference to undeclared step"⟩
      | none =>
        if s.bindings.length ≠ s.capability.arity then
          some ⟨[s.id], "binding count does not match argument schema"⟩
        else
          validateSteps (declared ++ [s.id]) rest

/-- Modelled from the spec: the Pipeline Builder — accepts an ordered list of
step specifications and produces an immutable Pipeline, or fails with a
`ValidationError` and produces no Pipeline (§4.1). -/
def buildPipeline (specs : List Step) : Except ValidationError Pipeline :=
  match validateSteps [] specs with
  | some e => Except.error e
  | none => Except.ok ⟨specs⟩

/-- Modelled from the spec: `TelemetryEvent` — tagged variant
`LogLine | StepStarted | StepFinished | RunCompleted` (§3), plus the
`Overflow` marker event of the Telemetry Bus (§4.3). -/
inductive TelemetryEvent
  | logLine (text : String) (stepId : Option String)
  | stepStarted (stepId : String)
  | stepFinished (stepId : String) (outcome : Status)
  | runCompleted (succeeded failed skipped : Nat)
  | overflow
deriving DecidableEq

/-- The per-run result table: first matching entry for a step id. -/
def lookupResult (results : List (String × Status)) (id : String) : Option Status :=
  (results.find? (fun p => p.1 == id)).map (·.2)

/-- Modelled from the spec: binding resolution — a literal resolves to its
value, a `StepOutputRef` to the referenced StepResult's success value, and
fails to resolve when the referenced step did not succeed (§4.2). -/
def resolveBinding (results : List (String × Status)) : Binding → Option Int
  | .lit v => some v
  | .ref r =>
    match lookupResult results r with
    | some (.success v) => some v
    | _ => none

/-- Resolve all bindings of a step, left to right; fails when any single
binding fails to resolve. -/
def resolveAll (results : List (String × Status)) : List Binding → Option (List Int)
  | [] => some []
  | b :: rest =>
    match resolveBinding results b, resolveAll results rest with
    | some v, some vs => some (v :: vs)
    | _, _ => none

/-- The Execution Engine's per-run state: the result table, the telemetry
events published so far, and the ids of steps whose Call Capability was
actually invoked (the invocation record the spec's tests inspect). -/
structure RunState where
  results : List (String × Status)
  events : List TelemetryEvent
  invoked : List String

/-- Modelled from the spec: execution of one Step (§4.2) — resolve the
bindings; if some referenced step did not succeed the step is recorded as
`Skipped` and its capability is never invoked; otherwise the capability is
invoked through the adapter boundary and an adapter failure is captured as a
`Failure` result, never aborting the run.  `StepStarted` and `StepFinished`
are published for the step, in that order. -/
def execStep (st : RunState) (s : Step) : RunState :=
  match resolveAll st.results s.bindings with
  | none =>
    { results := st.results ++ [(s.id, Status.skipped)]
      events := st.events ++ [TelemetryEvent.stepStarted s.id,
        TelemetryEvent.stepFinished s.id Status.skipped]
      invoked := st.invoked }
  | some args =>
    let outcome : Status :=
      match s.capability.invoke args with
      | .ok v => Status.success v
      | .error e => Status.failure e
    { results := st.results ++ [(s.id, outcome)]
      events := st.events ++ [TelemetryEvent.stepStarted s.id,
        TelemetryEvent.stepFinished s.id outcome]
      invoked := st.invoked ++ [s.id] }

/-- Counts of Success / Failure / Skipped results in a result table. -/
def countStatus (results : List (String × Status)) : Nat × Nat × Nat :=
  results.foldl
    (fun c p =>
      match p.2 with
      | .success _ => (c.1 + 1, c.2.1, c.2.2)
      | .failure _ => (c.1, c.2.1 + 1, c.2.2)
      | .skipped => (c.1, c.2.1, c.2.2 + 1))
    (0, 0, 0)

/-- Modelled from the spec: the Execution Engine's run (§4.2) — the steps are
executed in the Pipeline's deterministic topological order (declaration
order, valid by §4.1's forward-reference-only rule), and a terminal
`RunCompleted` event with the aggregate Success/Failure/Skipped counts is
published after every step has a recorded StepResult. -/
def runPipeline (p : Pipeline) : RunState :=
  let st := p.steps.foldl execStep ⟨[], [], []⟩
  let c := countStatus st.results
  { st with events := st.events ++ [TelemetryEvent.runCompleted c.1 c.2.1 c.2.2] }

/-- Modelled from the spec: the Statistics Aggregator's `RunStatistics`
counters `{calls_issued, calls_succeeded, calls_failed, calls_skipped}`
(§3, §4.4; the latency histogram depends on wall-clock timestamps and is not
modelled). -/
structure RunStatistics where
  calls_issued : Nat
  calls_succeeded : Nat
  calls_failed : Nat
  calls_skipped : Nat
deriving DecidableEq

/-- Modelled from the spec: the Statistics Aggregator's reaction to one
telemetry event (§4.4) — on `StepFinished` with Success it increments
`calls_succeeded`; on Failure or Skipped it increments the corresponding
counter; `StepStarted` increments `calls_issued`. -/
def applyEvent (st : RunStatistics) : TelemetryEvent → RunStatistics
  | .stepStarted _ => { st with calls_issued := st.calls_issued + 1 }
  | .stepFinished _ (.success _) => { st with calls_succeeded := st.calls_succeeded + 1 }
  | .stepFinished _ (.failure _) => { st with calls_failed := st.calls_failed + 1 }
  | .stepFinished _ .skipped => { st with calls_skipped := st.calls_skipped + 1 }
  | _ => st

/-- Modelled from the spec: the Statistics Aggregator consuming a run's
telemetry event stream from zero counters (§4.4). -/
def aggregate (events : List TelemetryEvent) : RunStatistics :=
  events.foldl applyEvent ⟨0, 0, 0, 0⟩

/-- A subscriber's bounded buffer on the Telemetry Bus, plus whether the bus
ever dropped events for this subscriber. -/
structure SubscriberState where
  buf : List TelemetryEvent
  overflowed : Bool

/-- Modelled from the spec: the Telemetry Bus delivering one published event
into one subscriber's bounded buffer (§4.3) — if the buffer is full the bus
drops the oldest buffered events for that subscriber only, never blocking
the producer. -/
def pushEvent (cap : Nat) (st : SubscriberState) (e : TelemetryEvent) : SubscriberState :=
  if st.buf.length < cap then
    { st with buf := st.buf ++ [e] }
  else
    { buf := (st.buf ++ [e]).drop (st.buf.length + 1 - cap), overflowed := true }

/-- Modelled from the spec: what a deliberately slow subscriber (one that
drains nothing while `events` are published) eventually receives from a bus
with buffer capacity `cap` — the surviving buffered events, preceded by a
single `Overflow` marker event when the bus dropped anything (§4.3). -/
def slowReceive (cap : Nat) (events : List TelemetryEvent) : List TelemetryEvent :=
  let st := events.foldl (pushEvent cap) ⟨[], false⟩
  (if st.overflowed then [TelemetryEvent.overflow] else []) ++ st.buf

/-- Modelled from the spec: a fast subscriber drains its buffer after every
publish, accumulating every event in publication order (§4.3). -/
def fastReceive (events : List TelemetryEvent) : List TelemetryEvent :=
  events.foldl (fun acc e => acc ++ [e]) []

/-- Step id position inside a list of ids (first occurrence). -/
def posOf (a : String) : List String → Nat
  | [] => 0
  | b :: rest => if b == a then 0 else posOf a rest + 1

/-- Index of the first event satisfying a predicate in an event stream. -/
def idxOf (p : TelemetryEvent → Bool) : List TelemetryEvent → Nat
  | [] => 0
  | e :: rest => if p e then 0 else idxOf p rest + 1

/-- Recognizer for the `StepStarted` event of a given step. -/
def isStarted (id : String) : TelemetryEvent → Bool
  | .stepStarted j => j == id
  | _ => false

/-- Recognizer for the `StepFinished` event of a given step. -/
def isFinished (id : String) : TelemetryEvent → Bool
  | .stepFinished j _ => j == id
  | _ => false

/-- Whether a step's references are all among the already emitted ids. -/
def allRefsEmitted (emitted : List String) (s : Step) : Bool :=
  (refsOf s).all (fun r => emitted.contains r)

/-- Pick the first declared step whose dependencies are all emitted. -/
def pickReady (emitted : List String) : List Step → Option (Step × List Step)
  | [] => none
  | s :: rest =>
    if allRefsEmitted emitted s then some (s, rest)
    else
      match pickReady emitted rest with
      | some (t, rest') => some (t, s :: rest')
      | none => none

/-- Fuelled worklist of the stable topological derivation. -/
def deriveTopoAux : Nat → List String → List Step → List String
  | 0, _, _ => []
  | Nat.succ fuel, emitted, pending =>
    match pickReady emitted pending with
    | none => []
    | some (t, rest) => t.id :: deriveTopoAux fuel (emitted ++ [t.id]) rest

/-- Modelled from the spec: re-deriving the Pipeline's deterministic
topological ordering — repeatedly schedule the first declared step whose
dependencies are satisfied (stable selection by declaration index among
ready steps, §4.1). -/
def deriveTopo (p : Pipeline) : List String :=
  deriveTopoAux p.steps.length [] p.steps

/-- One step-to-step dependency edge induced by a step list: step `a`
declares a `StepOutputRef` to step `b`. -/
def dependsOn (specs : List Step) (a b : String) : Prop :=
  ∃ s ∈ specs, s.id = a ∧ Binding.ref b ∈ s.bindings

/-- A dependency cycle in a step list: some id depends on itself through one
or more edges. -/
def hasCycle (specs : List Step) : Prop :=
  ∃ a, Relation.TransGen (dependsOn specs) a a

/-- C1 scenario, step A: no dependencies, capability returns 5. -/
def stepA : Step :=
  ⟨"A", ⟨"node", "constFive", 0, fun _ => Except.ok 5⟩, []⟩

/-- C1 scenario, step B: depends on A, multiplies A's output by 2 through the
exported `multiply` function. -/
def stepB : Step :=
  ⟨"B",
    ⟨"node", "multiply", 2,
      fun args =>
        match args with
        | [a, b] => Except.ok (multiply a b)
        | _ => Except.error "arity mismatch"⟩,
    [Binding.ref "A", Binding.lit 2]⟩

/-- The two-step demo pipeline of the C1 scenario. -/
def demoPipeline : Pipeline := ⟨[stepA, stepB]⟩

/-- C5 witness scenario, step F: fails with AdapterError `boom`. -/
def stepF : Step :=
  ⟨"F", ⟨"node", "boom", 0, fun _ => Except.error "boom"⟩, []⟩

/-- C5 witness scenario, step G: depends on the failing step F. -/
def stepG : Step :=
  ⟨"G",
    ⟨"node", "identity", 1,
      fun args =>
        match args with
        | [a] => Except.ok a
        | _ => Except.error "arity mismatch"⟩,
    [Binding.ref "F"]⟩

/-- The failure-propagation demo pipeline used to witness C5. -/
def failPipeline : Pipeline := ⟨[stepF, stepG]⟩

/-- C7 scenario, step A of the two-step cycle: A depends on B. -/
def cycA : Step :=
  ⟨"A", ⟨"node", "f", 1, fun _ => Except.ok 0⟩, [Binding.ref "B"]⟩

/-- C7 scenario, step B of the two-step cycle: B depends on A. -/
def cycB : Step :=
  ⟨"B", ⟨"node", "g", 1, fun _ => Except.ok 0⟩, [Binding.ref "A"]⟩

/-- C9 witness scenario: an independent step with only literal bindings. -/
def litA : Step :=
  ⟨"A", ⟨"node", "one", 1, fun _ => Except.ok 1⟩, [Binding.lit 1]⟩

/-- C9 witness scenario: a second independent step with no references. -/
def litB : Step :=
  ⟨"B", ⟨"node", "two", 0, fun _ => Except.ok 2⟩, []⟩

/-- The telemetry events the engine publishes for a list of step outcomes:
`StepStarted` then `StepFinished` for each step, in execution order. -/
def flatEvents : List (String × Status) → List TelemetryEvent
  | [] => []
  | (id, outcome) :: rest =>
    TelemetryEvent.stepStarted id :: TelemetryEvent.stepFinished id outcome :: flatEvents rest

/-- The three outcome counters of a statistics snapshot, summed. -/
def sum3 (st : RunStatistics) : Nat :=
  st.calls_succeeded + st.calls_failed + st.calls_skipped

/-- Number of `StepFinished` events in an event stream. -/
def countFinished (evs : List TelemetryEvent) : Nat :=
  evs.countP (fun e => match e with | .stepFinished _ _ => true | _ => false)

/-- C2: the exported `reverse` function is an involution. -/
theorem reverse_involution (s : String) : reverse (reverse s) = s := by
  cases s with
  | mk data => simp [reverse]

/-- Helper: `fibonacci` agrees with Mathlib's reference Fibonacci function. -/
theorem fibonacci_eq_fib (n : Nat) : fibonacci n = Nat.fib n := by
  induction n using Nat.strong_induction_on with
  | _ n ih =>
    match n with
    | 0 => simp [fibonacci]
    | 1 => simp [fibonacci]
    | (m + 2) =>
      rw [fibonacci]
      simp only [Nat.add_sub_cancel]
      have h1 : m + 2 - 1 = m + 1 := by omega
      have h2 : ¬ (m + 2 ≤ 1) := by omega
      rw [if_neg h2, h1, ih (m + 1) (by omega), ih m (by omega),
        Nat.fib_add_two, Nat.add_comm]

/-- C3: `fibonacci` is total (it is a Lean function on `Nat`), satisfies the
base cases `fibonacci 0 = 0` and `fibonacci 1 = 1`, satisfies the two-step
recurrence for `n ≥ 2`, and coincides with the standard reference Fibonacci
function everywhere. -/
theorem fibonacci_spec :
    fibonacci 0 = 0 ∧ fibonacci 1 = 1 ∧
    (∀ n, 2 ≤ n → fibonacci n = fibonacci (n - 1) + fibonacci (n - 2)) ∧
    (∀ n, fibonacci n = Nat.fib n) := by
  refine ⟨by simp [fibonacci], by simp [fibonacci], ?_, fibonacci_eq_fib⟩
  intro n hn
  rw [fibonacci, if_neg (by omega)]

/-- Witness for C3: the recurrence instantiated at `n = 7`, together with a
concrete evaluation. -/
theorem fibonacci_spec_witness :
    fibonacci 7 = fibonacci 6 + fibonacci 5 ∧ fibonacci 7 = 13 :=
  ⟨fibonacci_spec.2.2.1 7 (by decide), (fibonacci_spec.2.2.2 7).trans (by decide)⟩

/-- C4: the exported `multiply` function is commutative. -/
theorem multiply_comm (a b : Int) : multiply a b = multiply b a := by
  simp [multiply, Int.mul_comm]

/-- C1: the two-step scenario — step A succeeds with 5, step B multiplies A's
output by 2 via the exported `multiply` function; the build succeeds, the run
completes reporting 2 Success and 0 Failure, B's final StepResult value is
10, and `multiply 5 2 = 10`. -/
theorem two_step_scenario :
    buildPipeline [stepA, stepB] = Except.ok demoPipeline ∧
    lookupResult (runPipeline demoPipeline).results "B" = some (Status.success 10) ∧
    (runPipeline demoPipeline).events =
      [TelemetryEvent.stepStarted "A",
        TelemetryEvent.stepFinished "A" (Status.success 5),
        TelemetryEvent.stepStarted "B",
        TelemetryEvent.stepFinished "B" (Status.success 10),
        TelemetryEvent.runCompleted 2 0 0] ∧
    multiply 5 2 = 10 :=
  ⟨rfl, rfl, rfl, rfl⟩

/-- Executing one step appends exactly one result row, publishes exactly its
`StepStarted`/`StepFinished` pair, and extends the invocation record by at
most that step's id. -/
theorem execStep_shape (st : RunState) (s : Step) :
    ∃ x : Status,
      (execStep st s).results = st.results ++ [(s.id, x)] ∧
      (execStep st s).events = st.events ++ [TelemetryEvent.stepStarted s.id,
        TelemetryEvent.stepFinished s.id x] ∧
      ((execStep st s).invoked = st.invoked ∨
        (execStep st s).invoked = st.invoked ++ [s.id]) := by
  unfold execStep
  cases resolveAll st.results s.bindings with
  | none => exact ⟨Status.skipped, rfl, rfl, Or.inl rfl⟩
  | some args => exact ⟨_, rfl, rfl, Or.inr rfl⟩

/-- A fold of `execStep` only appends to the result table and the event
stream: the appended rows are one per executed step, in order, and the
appended events are the corresponding `StepStarted`/`StepFinished` pairs. -/
theorem foldl_execStep_shape (rest : List Step) : ∀ st : RunState,
    ∃ out : List (String × Status),
      (rest.foldl execStep st).results = st.results ++ out ∧
      (rest.foldl execStep st).events = st.events ++ flatEvents out ∧
      out.map Prod.fst = rest.map Step.id := by
  induction rest with
  | nil => exact fun st => ⟨[], by simp, by simp [flatEvents], rfl⟩
  | cons s rest ih =>
    intro st
    obtain ⟨x, hr, he, _⟩ := execStep_shape st s
    obtain ⟨out, hr2, he2, hm2⟩ := ih (execStep st s)
    refine ⟨(s.id, x) :: out, ?_, ?_, ?_⟩
    · rw [List.foldl_cons, hr2, hr]; simp
    · rw [List.foldl_cons, he2, he]; simp [flatEvents]
    · simp [hm2]

/-- Ids in the invocation record come from the initial record or from the
executed steps. -/
theorem foldl_execStep_invoked (rest : List Step) : ∀ (st : RunState) (x : String),
    x ∈ (rest.foldl execStep st).invoked → x ∈ st.invoked ∨ x ∈ rest.map Step.id := by
  induction rest with
  | nil => exact fun _ _ hx => Or.inl hx
  | cons s rest ih =>
    intro st x hx
    rw [List.foldl_cons] at hx
    rcases ih (execStep st s) x hx with h | h
    · obtain ⟨_, _, _, hi⟩ := execStep_shape st s
      rcases hi with hi | hi
      · rw [hi] at h; exact Or.inl h
      · rw [hi] at h
        rcases List.mem_append.mp h with h | h
        · exact Or.inl h
        · right; rw [List.map_cons]; simp at h; simp [h]
    · right; rw [List.map_cons]; exact List.mem_cons_of_mem _ h

/-- Looking a key up in an extended result table gives the original answer
when the key is already bound. -/
theorem lookupResult_append_left (l₁ l₂ : List (String × Status)) (a : String)
    (h : a ∈ l₁.map Prod.fst) :
    lookupResult (l₁ ++ l₂) a = lookupResult l₁ a := by
  induction l₁ with
  | nil => simp at h
  | cons p rest ih =>
    obtain ⟨i, o⟩ := p
    by_cases hp : i = a
    · simp [lookupResult, hp]
    · simp only [List.map_cons, List.mem_cons] at h
      rcases h with h | h
      · exact absurd h.symm hp
      · simpa [lookupResult, hp] using ih h

/-- Looking a key up in a concatenated result table skips a prefix that does
not bind the key. -/
theorem lookupResult_append_right (l₁ l₂ : List (String × Status)) (a : String)
    (h : a ∉ l₁.map Prod.fst) :
    lookupResult (l₁ ++ l₂) a = lookupResult l₂ a := by
  induction l₁ with
  | nil => simp
  | cons p rest ih =>
    obtain ⟨i, o⟩ := p
    simp only [List.map_cons, List.mem_cons] at h
    push_neg at h
    have hp : ¬ i = a := fun hc => h.1 hc.symm
    simpa [lookupResult, hp] using ih h.2

/-- If one binding of a step fails to resolve, resolving all bindings fails. -/
theorem resolveAll_none (results : List (String × Status)) (l : List Binding) (b : Binding)
    (hb : b ∈ l) (hf : resolveBinding results b = none) :
    resolveAll results l = none := by
  induction l with
  | nil => simp at hb
  | cons x rest ih =>
    rcases List.mem_cons.mp hb with h | h
    · subst h; simp [resolveAll, hf]
    · cases hx : resolveBinding results x with
      | none => simp [resolveAll, hx]
      | some v => simp [resolveAll, hx, ih h]

/-- Boolean list containment agrees with membership. -/
theorem contains_true_iff (l : List String) (a : String) :
    l.contains a = true ↔ a ∈ l := by
  induction l with
  | nil => simp
  | cons b rest ih => simp [List.contains_cons, ih]

/-- C6: for every completed run, the aggregated Success, Failure and Skipped
counters partition the Pipeline's steps:
`calls_succeeded + calls_failed + calls_skipped` equals the number of Steps. -/
theorem stats_partition (p : Pipeline) :
    (aggregate (runPipeline p).events).calls_succeeded +
      (aggregate (runPipeline p).events).calls_failed +
      (aggregate (runPipeline p).events).calls_skipped = p.steps.length := by
  have key : ∀ (evs : List TelemetryEvent) (init : RunStatistics),
      sum3 (evs.foldl applyEvent init) = sum3 init + countFinished evs := by
    intro evs
    induction evs with
    | nil => intro init; simp [countFinished]
    | cons e rest ih =>
      intro init
      rw [List.foldl_cons, ih]
      cases e with
      | stepFinished id outcome =>
        cases outcome <;> simp [applyEvent, sum3, countFinished, List.countP_cons] <;> omega
      | logLine t i => simp [applyEvent, sum3, countFinished, List.countP_cons]
      | stepStarted id => simp [applyEvent, sum3, countFinished, List.countP_cons]
      | runCompleted a b c => simp [applyEvent, sum3, countFinished, List.countP_cons]
      | overflow => simp [applyEvent, sum3, countFinished, List.countP_cons]
  have flat_count : ∀ out : List (String × Status),
      countFinished (flatEvents out) = out.length := by
    intro out
    induction out with
    | nil => simp [flatEvents, countFinished]
    | cons q rest ih =>
      obtain ⟨i, o⟩ := q
      simp [flatEvents, countFinished, List.countP_cons] at ih ⊢
      omega
  obtain ⟨out, _, hev, hmap⟩ := foldl_execStep_shape p.steps ⟨[], [], []⟩
  have hev' : (runPipeline p).events =
      flatEvents out ++ [TelemetryEvent.runCompleted
        (countStatus (p.steps.foldl execStep ⟨[], [], []⟩).results).1
        (countStatus (p.steps.foldl execStep ⟨[], [], []⟩).results).2.1
        (countStatus (p.steps.foldl execStep ⟨[], [], []⟩).results).2.2] := by
    simp only [runPipeline]
    rw [hev]
    simp
  have : sum3 (aggregate (runPipeline p).events) = countFinished (runPipeline p).events := by
    rw [aggregate, key]
    simp [sum3]
  have hcount : countFinished (runPipeline p).events = p.steps.length := by
    rw [hev', countFinished, List.countP_append]
    have := flat_count out
    rw [countFinished] at this
    rw [this]
    have hlen : out.length = p.steps.length := by
      have := congrArg List.length hmap
      simpa using this
    simp [hlen, List.countP_cons]
  rw [← hcount, ← this]
  simp [sum3]

/-- Inversion of one validation round: a validated head step has a fresh id,
only previously declared references, a matching arity, and the tail
validates with the head declared. -/
theorem validate_cons {d : List String} {s : Step} {rest : List Step}
    (h : validateSteps d (s :: rest) = none) :
    d.contains s.id = false ∧ firstBadRef d s = none ∧
      s.bindings.length = s.capability.arity ∧
      validateSteps (d ++ [s.id]) rest = none := by
  by_cases h1 : d.contains s.id
  · rw [validateSteps, if_pos h1] at h; cases h
  · rw [validateSteps, if_neg h1] at h
    cases h2 : firstBadRef d s with
    | some r => rw [h2] at h; simp at h
    | none =>
      rw [h2] at h
      simp only at h
      by_cases h3 : s.bindings.length ≠ s.capability.arity
      · rw [if_pos h3] at h; cases h
      · rw [if_neg h3] at h
        exact ⟨by simpa using h1, rfl, not_ne_iff.mp h3, h⟩

/-- When a step has no bad reference, each of its references is declared. -/
theorem firstBadRef_none {d : List String} {s : Step} (h : firstBadRef d s = none) :
    ∀ r ∈ refsOf s, d.contains r = true := by
  intro r hr
  have := List.find?_eq_none.mp h r hr
  simpa using this

/-- Ids of validated steps are fresh with respect to the declared prefix. -/
theorem validate_fresh {rest : List Step} : ∀ {d : List String},
    validateSteps d rest = none → ∀ s ∈ rest, s.id ∉ d := by
  induction rest with
  | nil => intro d _ s hs; simp at hs
  | cons t rest ih =>
    intro d h s hs
    obtain ⟨h1, _, _, h4⟩ := validate_cons h
    rcases List.mem_cons.mp hs with h5 | h5
    · subst h5
      intro hmem
      rw [(contains_true_iff d s.id).mpr hmem] at h1
      cases h1
    · intro hmem
      exact ih h4 s h5 (List.mem_append_left _ hmem)

/-- Validated step lists have pairwise distinct ids. -/
theorem validate_nodup {rest : List Step} : ∀ {d : List String},
    validateSteps d rest = none → (rest.map Step.id).Nodup := by
  induction rest with
  | nil => simp
  | cons t rest ih =>
    intro d h
    obtain ⟨_, _, _, h4⟩ := validate_cons h
    rw [List.map_cons, List.nodup_cons]
    refine ⟨?_, ih h4⟩
    intro hmem
    obtain ⟨s, hs, hid⟩ := List.mem_map.mp hmem
    exact validate_fresh h4 s hs (by rw [hid]; exact List.mem_append_right _ (by simp))

/-- Every reference of a validated step either names an id declared before
the whole list, or names an earlier step of the list (strictly smaller
position). -/
theorem validate_refs {rest : List Step} : ∀ {d : List String},
    validateSteps d rest = none →
    ∀ s ∈ rest, ∀ r ∈ refsOf s,
      r ∈ d ∨ (r ∈ rest.map Step.id ∧
        posOf r (rest.map Step.id) < posOf s.id (rest.map Step.id)) := by
  induction rest with
  | nil => intro d _ s hs; simp at hs
  | cons t rest ih =>
    intro d h s hs r hr
    obtain ⟨h1, h2, h3, h4⟩ := validate_cons h
    rcases List.mem_cons.mp hs with h5 | h5
    · subst h5
      exact Or.inl ((contains_true_iff _ _).mp (firstBadRef_none h2 r hr))
    · have hne : s.id ≠ t.id := by
        have := validate_fresh h4 s h5
        intro hc
        exact this (by rw [hc]; exact List.mem_append_right _ (by simp))
      have hpos_s : posOf s.id ((t :: rest).map Step.id) =
          posOf s.id (rest.map Step.id) + 1 := by
        simp [posOf, List.map_cons]
        intro hc
        exact absurd hc.symm hne
      by_cases hrt : r = t.id
      · subst hrt
        refine Or.inr ⟨by simp [List.map_cons], ?_⟩
        rw [hpos_s]
        simp [posOf, List.map_cons]
      · rcases ih h4 s h5 r hr with h6 | ⟨h6, h7⟩
        · rcases List.mem_append.mp h6 with h6 | h6
          · exact Or.inl h6
          · simp at h6; exact absurd h6 hrt
        · refine Or.inr ⟨by rw [List.map_cons]; exact List.mem_cons_of_mem _ h6, ?_⟩
          rw [hpos_s]
          have hpos_r : posOf r ((t :: rest).map Step.id) =
              posOf r (rest.map Step.id) + 1 := by
            simp [posOf, List.map_cons]
            intro hc
            exact absurd hc.symm hrt
          rw [hpos_r]
          omega

/-- Inversion of a successful build: validation passed and the Pipeline is
exactly the declared steps. -/
theorem build_ok {specs : List Step} {p : Pipeline}
    (h : buildPipeline specs = Except.ok p) :
    validateSteps [] specs = none ∧ p = ⟨specs⟩ := by
  unfold buildPipeline at h
  cases hv : validateSteps [] specs with
  | some e => rw [hv] at h; cases h
  | none =>
    rw [hv] at h
    simp only at h
    refine ⟨rfl, ?_⟩
    injection h with h
    exact h.symm

/-- Core induction for C5: along a validated fold, a step one of whose
referenced dependencies finally reads as Failure is itself recorded as
Skipped, and its id never enters the invocation record. -/
theorem exec_skips (rest : List Step) : ∀ (st : RunState),
    validateSteps (st.results.map Prod.fst) rest = none →
    ∀ s ∈ rest, s.id ∉ st.invoked →
    ∀ r e, Binding.ref r ∈ s.bindings →
      lookupResult (rest.foldl execStep st).results r = some (Status.failure e) →
      lookupResult (rest.foldl execStep st).results s.id = some Status.skipped ∧
      s.id ∉ (rest.foldl execStep st).invoked := by
  induction rest with
  | nil => intro st _ s hs; simp at hs
  | cons t rest ih =>
    intro st hval s hs hinv r e hb hlookup
    obtain ⟨h1, h2, h3, h4⟩ := validate_cons hval
    rcases List.mem_cons.mp hs with heq | hmem
    · subst heq
      have hr : r ∈ refsOf s := List.mem_filterMap.mpr ⟨Binding.ref r, hb, rfl⟩
      have hrd : r ∈ st.results.map Prod.fst :=
        (contains_true_iff _ _).mp (firstBadRef_none h2 r hr)
      obtain ⟨out, hres, _, hmap⟩ := foldl_execStep_shape (s :: rest) st
      rw [hres, lookupResult_append_left _ _ _ hrd] at hlookup
      have hresolve : resolveBinding st.results (Binding.ref r) = none := by
        simp [resolveBinding, hlookup]
      have hall : resolveAll st.results s.bindings = none :=
        resolveAll_none _ _ _ hb hresolve
      have hstep : execStep st s =
          { results := st.results ++ [(s.id, Status.skipped)]
            events := st.events ++ [TelemetryEvent.stepStarted s.id,
              TelemetryEvent.stepFinished s.id Status.skipped]
            invoked := st.invoked } := by
        unfold execStep
        rw [hall]
      have hnotin : s.id ∉ st.results.map Prod.fst := by
        intro hx
        rw [(contains_true_iff _ _).mpr hx] at h1
        cases h1
      constructor
      · obtain ⟨out', hres', _, _⟩ := foldl_execStep_shape rest (execStep st s)
        rw [List.foldl_cons, hres', hstep]
        simp only
        rw [List.append_assoc]
        rw [lookupResult_append_right _ _ _ hnotin]
        simp [lookupResult]
      · rw [List.foldl_cons]
        intro hmem'
        rcases foldl_execStep_invoked rest (execStep st s) s.id hmem' with h | h
        · rw [hstep] at h
          exact hinv h
        · obtain ⟨u, hu, huid⟩ := List.mem_map.mp h
          exact validate_fresh h4 u hu
            (by rw [huid]; exact List.mem_append_right _ (by simp))
    · rw [List.foldl_cons] at hlookup ⊢
      obtain ⟨x, hres1, _, hinv1⟩ := execStep_shape st t
      have hne : s.id ≠ t.id := by
        have := validate_fresh h4 s hmem
        intro hc
        exact this (by rw [hc]; exact List.mem_append_right _ (by simp))
      refine ih (execStep st t) ?_ s hmem ?_ r e hb hlookup
      · rw [hres1]
        simpa using h4
      · intro hc
        rcases hinv1 with hi | hi
        · rw [hi] at hc; exact hinv hc
        · rw [hi] at hc
          rcases List.mem_append.mp hc with hc | hc
          · exact hinv hc
          · simp at hc; exact hne hc

/-- C5: in every run of a validly built Pipeline, a Step one of whose
referenced upstream dependencies has a Failure StepResult is recorded as
Skipped, its Call Capability is never invoked (its id is absent from the
invocation record), and the run still completes: every Step has a recorded
StepResult and a terminal `RunCompleted` event is published. -/
theorem failed_dep_skipped (specs : List Step) (p : Pipeline)
    (hbuild : buildPipeline specs = Except.ok p)
    (s : Step) (hs : s ∈ p.steps) (r e : String)
    (hb : Binding.ref r ∈ s.bindings)
    (hfail : lookupResult (runPipeline p).results r = some (Status.failure e)) :
    lookupResult (runPipeline p).results s.id = some Status.skipped ∧
    s.id ∉ (runPipeline p).invoked ∧
    (runPipeline p).results.map Prod.fst = p.steps.map Step.id ∧
    (∃ a b c, TelemetryEvent.runCompleted a b c ∈ (runPipeline p).events) := by
  obtain ⟨hval, hp⟩ := build_ok hbuild
  have hres_eq : (runPipeline p).results = (p.steps.foldl execStep ⟨[], [], []⟩).results := rfl
  have hinv_eq : (runPipeline p).invoked = (p.steps.foldl execStep ⟨[], [], []⟩).invoked := rfl
  have hval' : validateSteps ((⟨[], [], []⟩ : RunState).results.map Prod.fst) p.steps = none := by
    rw [hp]
    exact hval
  have hmain := exec_skips p.steps ⟨[], [], []⟩ hval' s hs (by simp) r e hb
    (by rw [← hres_eq]; exact hfail)
  refine ⟨by rw [hres_eq]; exact hmain.1, by rw [hinv_eq]; exact hmain.2, ?_, ?_⟩
  · obtain ⟨out, hres, _, hmap⟩ := foldl_execStep_shape p.steps ⟨[], [], []⟩
    rw [hres_eq, hres]
    simpa using hmap
  · have hev : (runPipeline p).events =
        (p.steps.foldl execStep ⟨[], [], []⟩).events ++
          [TelemetryEvent.runCompleted
            (countStatus (p.steps.foldl execStep ⟨[], [], []⟩).results).1
            (countStatus (p.steps.foldl execStep ⟨[], [], []⟩).results).2.1
            (countStatus (p.steps.foldl execStep ⟨[], [], []⟩).results).2.2] := rfl
    exact ⟨(countStatus (p.steps.foldl execStep ⟨[], [], []⟩).results).1,
      (countStatus (p.steps.foldl execStep ⟨[], [], []⟩).results).2.1,
      (countStatus (p.steps.foldl execStep ⟨[], [], []⟩).results).2.2,
      by rw [hev]; exact List.mem_append_right _ (by simp)⟩

/-- Witness for C5: in the concrete pipeline where step F fails with adapter
error `boom` and step G references F, G is recorded as Skipped and G's
capability is never invoked. -/
theorem failed_dep_skipped_witness :
    lookupResult (runPipeline failPipeline).results "G" = some Status.skipped ∧
    "G" ∉ (runPipeline failPipeline).invoked ∧
    (runPipeline failPipeline).results.map Prod.fst = ["F", "G"] ∧
    (∃ a b c, TelemetryEvent.runCompleted a b c ∈ (runPipeline failPipeline).events) := by
  have h := failed_dep_skipped [stepF, stepG] failPipeline rfl stepG
    (by simp [failPipeline]) "F" "boom" (by simp [stepG]) rfl
  exact ⟨h.1, h.2.1, h.2.2.1, h.2.2.2⟩

/-- A dependency edge of a successfully validated step list always points to
a strictly earlier declared step. -/
theorem dependsOn_pos {specs : List Step} (hval : validateSteps [] specs = none)
    {a b : String} (hdep : dependsOn specs a b) :
    posOf b (specs.map Step.id) < posOf a (specs.map Step.id) := by
  obtain ⟨s, hs, hid, hb⟩ := hdep
  have hr : b ∈ refsOf s := List.mem_filterMap.mpr ⟨Binding.ref b, hb, rfl⟩
  rcases validate_refs hval s hs b hr with h | ⟨_, h⟩
  · simp at h
  · rw [← hid]; exact h

/-- C7: a dependency cycle is always rejected by the Pipeline Builder — the
concrete two-step cycle (A depends on B, B depends on A) fails with a
`ValidationError` naming both step ids and no Pipeline is produced; every
step list with a dependency cycle fails to build; and on every successful
build each `StepOutputRef` names a previously declared step id. -/
theorem cycle_rejected :
    (∃ err : ValidationError,
      buildPipeline [cycA, cycB] = Except.error err ∧
      "A" ∈ err.offenders ∧ "B" ∈ err.offenders) ∧
    (∀ specs : List Step, hasCycle specs →
      ∃ err : ValidationError, buildPipeline specs = Except.error err) ∧
    (∀ (specs : List Step) (p : Pipeline), buildPipeline specs = Except.ok p →
      ∀ s ∈ specs, ∀ r ∈ refsOf s,
        r ∈ specs.map Step.id ∧
          posOf r (specs.map Step.id) < posOf s.id (specs.map Step.id)) := by
  refine ⟨⟨⟨["A", "B"], "reference to undeclared step"⟩, rfl, by simp, by simp⟩, ?_, ?_⟩
  · intro specs hcyc
    cases hv : validateSteps [] specs with
    | some err => exact ⟨err, by simp [buildPipeline, hv]⟩
    | none =>
      exfalso
      obtain ⟨a, htrans⟩ := hcyc
      have hlt : ∀ x y, Relation.TransGen (dependsOn specs) x y →
          posOf y (specs.map Step.id) < posOf x (specs.map Step.id) := by
        intro x y hxy
        induction hxy with
        | single h => exact dependsOn_pos hv h
        | tail _ h ih => exact lt_trans (dependsOn_pos hv h) ih
      exact lt_irrefl _ (hlt a a htrans)
  · intro specs p hbuild s hs r hr
    obtain ⟨hval, _⟩ := build_ok hbuild
    rcases validate_refs hval s hs r hr with h | h
    · simp at h
    · exact h

/-- Witness for C7: the universal cycle-rejection component applied to the
concrete two-step cycle A ↔ B. -/
theorem cycle_rejected_witness :
    ∃ err : ValidationError, buildPipeline [cycA, cycB] = Except.error err := by
  have e1 : dependsOn [cycA, cycB] "A" "B" :=
    ⟨cycA, by simp, rfl, by simp [cycA]⟩
  have e2 : dependsOn [cycA, cycB] "B" "A" :=
    ⟨cycB, by simp, rfl, by simp [cycB]⟩
  exact cycle_rejected.2.1 [cycA, cycB]
    ⟨"A", Relation.TransGen.tail (Relation.TransGen.single e1) e2⟩

/-- In the engine's event stream, the `StepStarted` event of the step at
position `k` of the execution order sits at index `2 * k`. -/
theorem idx_started_flat (out : List (String × Status)) (tail : List TelemetryEvent)
    (a : String) (ha : a ∈ out.map Prod.fst) :
    idxOf (isStarted a) (flatEvents out ++ tail) = 2 * posOf a (out.map Prod.fst) := by
  induction out with
  | nil => simp at ha
  | cons q out ih =>
    obtain ⟨i, o⟩ := q
    by_cases h : i = a
    · subst h
      simp [flatEvents, idxOf, isStarted, posOf]
    · have ha' : a ∈ out.map Prod.fst := by
        simp only [List.map_cons, List.mem_cons] at ha
        rcases ha with h' | h'
        · exact absurd h'.symm h
        · exact h'
      have hbeq : (i == a) = false := by simp [h]
      have hrec := ih ha'
      simp only [flatEvents, List.cons_append, idxOf, isStarted, hbeq, List.map_cons,
        posOf, Bool.false_eq_true, if_false, List.append_eq] at hrec ⊢
      omega

/-- In the engine's event stream, the `StepFinished` event of the step at
position `k` of the execution order sits at index `2 * k + 1`. -/
theorem idx_finished_flat (out : List (String × Status)) (tail : List TelemetryEvent)
    (a : String) (ha : a ∈ out.map Prod.fst) :
    idxOf (isFinished a) (flatEvents out ++ tail) = 2 * posOf a (out.map Prod.fst) + 1 := by
  induction out with
  | nil => simp at ha
  | cons q out ih =>
    obtain ⟨i, o⟩ := q
    by_cases h : i = a
    · subst h
      simp [flatEvents, idxOf, isFinished, posOf]
    · have ha' : a ∈ out.map Prod.fst := by
        simp only [List.map_cons, List.mem_cons] at ha
        rcases ha with h' | h'
        · exact absurd h'.symm h
        · exact h'
      have hbeq : (i == a) = false := by simp [h]
      have hrec := ih ha'
      simp only [flatEvents, List.cons_append, idxOf, isFinished, isStarted, hbeq,
        List.map_cons, posOf, Bool.false_eq_true, if_false, List.append_eq] at hrec ⊢
      omega

/-- C8: for every validly built Pipeline, the engine's published event order
is a topological linearization of the dependency graph — each step's
`StepStarted` is published before its `StepFinished`, and the `StepFinished`
of every referenced dependency is published before the dependent step's
`StepStarted`. -/
theorem topo_linearization (specs : List Step) (p : Pipeline)
    (hbuild : buildPipeline specs = Except.ok p) :
    (∀ s ∈ p.steps,
      idxOf (isStarted s.id) (runPipeline p).events <
        idxOf (isFinished s.id) (runPipeline p).events) ∧
    (∀ s ∈ p.steps, ∀ r, Binding.ref r ∈ s.bindings →
      idxOf (isFinished r) (runPipeline p).events <
        idxOf (isStarted s.id) (runPipeline p).events) := by
  obtain ⟨hval, hp⟩ := build_ok hbuild
  have hval' : validateSteps [] p.steps = none := by rw [hp]; exact hval
  obtain ⟨out, _, hev, hmap⟩ := foldl_execStep_shape p.steps ⟨[], [], []⟩
  have hev' : (runPipeline p).events = flatEvents out ++
      [TelemetryEvent.runCompleted
        (countStatus (p.steps.foldl execStep ⟨[], [], []⟩).results).1
        (countStatus (p.steps.foldl execStep ⟨[], [], []⟩).results).2.1
        (countStatus (p.steps.foldl execStep ⟨[], [], []⟩).results).2.2] := by
    have h0 : (runPipeline p).events =
        (p.steps.foldl execStep ⟨[], [], []⟩).events ++
          [TelemetryEvent.runCompleted
            (countStatus (p.steps.foldl execStep ⟨[], [], []⟩).results).1
            (countStatus (p.steps.foldl execStep ⟨[], [], []⟩).results).2.1
            (countStatus (p.steps.foldl execStep ⟨[], [], []⟩).results).2.2] := rfl
    rw [h0, hev]
    simp
  constructor
  · intro s hs
    have hsid : s.id ∈ out.map Prod.fst := by
      rw [hmap]; exact List.mem_map_of_mem _ hs
    rw [hev', idx_started_flat _ _ _ hsid, idx_finished_flat _ _ _ hsid]
    omega
  · intro s hs r hb
    have hsid : s.id ∈ out.map Prod.fst := by
      rw [hmap]; exact List.mem_map_of_mem _ hs
    have hr : r ∈ refsOf s := List.mem_filterMap.mpr ⟨Binding.ref r, hb, rfl⟩
    rcases validate_refs hval' s hs r hr with h | ⟨hrmem, hlt⟩
    · simp at h
    · have hrid : r ∈ out.map Prod.fst := by rw [hmap]; exact hrmem
      rw [hev', idx_finished_flat _ _ _ hrid, idx_started_flat _ _ _ hsid, hmap]
      omega

/-- Witness for C8: in the two-step demo pipeline, A starts before A
finishes, and A finishes before its dependent B starts. -/
theorem topo_linearization_witness :
    idxOf (isStarted "A") (runPipeline demoPipeline).events <
      idxOf (isFinished "A") (runPipeline demoPipeline).events ∧
    idxOf (isFinished "A") (runPipeline demoPipeline).events <
      idxOf (isStarted "B") (runPipeline demoPipeline).events := by
  have h := topo_linearization [stepA, stepB] demoPipeline rfl
  exact ⟨h.1 stepA (by simp [demoPipeline]),
    h.2 stepB (by simp [demoPipeline]) "A" (by simp [stepB])⟩

/-- The stable topological derivation of a list of reference-free steps
emits the steps in declaration order. -/
theorem deriveTopoAux_literal (specs : List Step) : ∀ emitted : List String,
    (∀ s ∈ specs, refsOf s = []) →
    deriveTopoAux specs.length emitted specs = specs.map Step.id := by
  induction specs with
  | nil => intro emitted _; rfl
  | cons t rest ih =>
    intro emitted h
    have ht : allRefsEmitted emitted t = true := by
      simp [allRefsEmitted, h t (by simp)]
    have hpick : pickReady emitted (t :: rest) = some (t, rest) := by
      rw [pickReady, if_pos ht]
    simp only [List.length_cons, deriveTopoAux, hpick, List.map_cons]
    rw [ih (emitted ++ [t.id]) (fun s hs => h s (List.mem_cons_of_mem _ hs))]

/-- C9: building a Pipeline from mutually independent step specifications
(steps with no `StepOutputRef` bindings) and re-deriving its topological
order yields exactly the original declaration order. -/
theorem independent_roundtrip (specs : List Step) (p : Pipeline)
    (hind : ∀ s ∈ specs, refsOf s = [])
    (hbuild : buildPipeline specs = Except.ok p) :
    deriveTopo p = specs.map Step.id := by
  obtain ⟨_, hp⟩ := build_ok hbuild
  rw [hp]
  exact deriveTopoAux_literal specs [] hind

/-- Witness for C9: two literal-only steps round-trip to their declaration
order. -/
theorem independent_roundtrip_witness :
    deriveTopo (Pipeline.mk [litA, litB]) = ["A", "B"] := by
  refine independent_roundtrip [litA, litB] (Pipeline.mk [litA, litB]) ?_ rfl
  intro s hs
  rcases List.mem_cons.mp hs with h | h
  · subst h; rfl
  · rcases List.mem_cons.mp h with h' | h'
    · subst h'; rfl
    · simp at h'

/-- Auxiliary fold identity: a fast subscriber's accumulator collects all
published events in order. -/
theorem fold_append_eq (l : List TelemetryEvent) : ∀ acc : List TelemetryEvent,
    l.foldl (fun a e => a ++ [e]) acc = acc ++ l := by
  induction l with
  | nil => simp
  | cons e rest ih => intro acc; rw [List.foldl_cons, ih]; simp

/-- Invariant of the bounded subscriber buffer: after publishing `l` from a
state whose buffer is within capacity, the buffer holds the newest `cap`
events and the overflow flag records whether anything was ever dropped. -/
theorem pushEvent_fold_inv (cap : Nat) (l : List TelemetryEvent) :
    ∀ st : SubscriberState, st.buf.length ≤ cap →
    (l.foldl (pushEvent cap) st).buf =
      (st.buf ++ l).drop ((st.buf ++ l).length - cap) ∧
    (l.foldl (pushEvent cap) st).overflowed =
      (st.overflowed || decide (cap < (st.buf ++ l).length)) := by
  induction l with
  | nil =>
    intro st hst
    have hd : st.buf.length - cap = 0 := by omega
    have hc : ¬ cap < st.buf.length := by omega
    simp [hd, hc]
  | cons e rest ih =>
    intro st hst
    rw [List.foldl_cons]
    by_cases hlt : st.buf.length < cap
    · have hbufeq : (pushEvent cap st e).buf = st.buf ++ [e] := by
        rw [pushEvent, if_pos hlt]
      have hovereq : (pushEvent cap st e).overflowed = st.overflowed := by
        rw [pushEvent, if_pos hlt]
      have hlen : (pushEvent cap st e).buf.length ≤ cap := by
        rw [hbufeq]
        simp
        omega
      obtain ⟨ih1, ih2⟩ := ih (pushEvent cap st e) hlen
      rw [hbufeq] at ih1 ih2
      rw [hovereq] at ih2
      have hle : (st.buf ++ [e]) ++ rest = st.buf ++ e :: rest := by simp
      rw [hle] at ih1 ih2
      exact ⟨ih1, ih2⟩
    · have hcap2 : st.buf.length = cap := by omega
      have hbufeq : (pushEvent cap st e).buf = (st.buf ++ [e]).drop 1 := by
        rw [pushEvent, if_neg hlt]
        simp [hcap2]
      have hovereq : (pushEvent cap st e).overflowed = true := by
        rw [pushEvent, if_neg hlt]
      have hlen' : (pushEvent cap st e).buf.length ≤ cap := by
        rw [hbufeq]
        simp
        omega
      obtain ⟨ih1, ih2⟩ := ih (pushEvent cap st e) hlen'
      rw [hbufeq] at ih1 ih2
      rw [hovereq] at ih2
      have hX : (st.buf ++ [e]).drop 1 ++ rest = (st.buf ++ e :: rest).drop 1 := by
        rw [← List.drop_append_of_le_length (by simp)]
        simp
      rw [hX] at ih1 ih2
      have hXlen : (st.buf ++ e :: rest).length = cap + 1 + rest.length := by
        simp [hcap2]
        omega
      constructor
      · rw [ih1, List.drop_drop]
        congr 1
        simp only [List.length_drop, hXlen]
        omega
      · rw [ih2]
        have h3 : cap < (st.buf ++ e :: rest).length := by
          rw [hXlen]
          omega
        simp [h3]
        right
        omega

/-- Counterexample to C10 as stated: with buffer capacity `M` equal to the
number of published events `N` (here both 1), the slow subscriber receives
the event without any `Overflow` marker, so `M ≤ N` does not yield exactly
one `Overflow` marker. -/
theorem bus_overflow_at_capacity_ce :
    (1 : Nat) ≤ ([TelemetryEvent.logLine "x" none] : List TelemetryEvent).length ∧
    slowReceive 1 [TelemetryEvent.logLine "x" none] = [TelemetryEvent.logLine "x" none] ∧
    (slowReceive 1 [TelemetryEvent.logLine "x" none]).count TelemetryEvent.overflow = 0 := by
  refine ⟨by decide, ?_, ?_⟩ <;> rfl

/-- C10 (amended: `M < N` instead of `M ≤ N`): publishing `N` events, none
itself an `Overflow` marker, to a bus whose subscriber buffer capacity is
`M < N` makes the slow subscriber receive exactly one `Overflow` marker
followed by the newest `M` events — the `N − M` oldest events are dropped
for that subscriber only — while a fast subscriber receives all `N` events
in order. -/
theorem bus_overflow (events : List TelemetryEvent) (cap : Nat)
    (hcap : cap < events.length)
    (hclean : TelemetryEvent.overflow ∉ events) :
    slowReceive cap events =
      TelemetryEvent.overflow :: events.drop (events.length - cap) ∧
    (slowReceive cap events).count TelemetryEvent.overflow = 1 ∧
    (events.drop (events.length - cap)).length = cap ∧
    fastReceive events = events := by
  obtain ⟨h1, h2⟩ := pushEvent_fold_inv cap events ⟨[], false⟩ (by simp)
  have hover : (events.foldl (pushEvent cap) ⟨[], false⟩).overflowed = true := by
    rw [h2]
    simp
    omega
  have hbuf : (events.foldl (pushEvent cap) ⟨[], false⟩).buf =
      events.drop (events.length - cap) := by
    rw [h1]
    simp
  have hrecv : slowReceive cap events =
      TelemetryEvent.overflow :: events.drop (events.length - cap) := by
    rw [slowReceive]
    simp only [hover, hbuf, if_true]
    rfl
  have hz : (events.drop (events.length - cap)).count TelemetryEvent.overflow = 0 := by
    rw [List.count_eq_zero]
    intro hx
    exact hclean (List.mem_of_mem_drop hx)
  refine ⟨hrecv, ?_, by simp; omega, fold_append_eq events []⟩
  rw [hrecv]
  simp [List.count_cons, hz]

/-- Witness for C10 (amended): two log events against a capacity-1 buffer —
the slow subscriber gets one `Overflow` marker and only the newest event,
the fast subscriber gets both events in order. -/
theorem bus_overflow_witness :
    slowReceive 1 [TelemetryEvent.logLine "a" none, TelemetryEvent.logLine "b" none] =
      [TelemetryEvent.overflow, TelemetryEvent.logLine "b" none] ∧
    (slowReceive 1 [TelemetryEvent.logLine "a" none,
      TelemetryEvent.logLine "b" none]).count TelemetryEvent.overflow = 1 ∧
    fastReceive [TelemetryEvent.logLine "a" none, TelemetryEvent.logLine "b" none] =
      [TelemetryEvent.logLine "a" none, TelemetryEvent.logLine "b" none] := by
  have h := bus_overflow [TelemetryEvent.logLine "a" none, TelemetryEvent.logLine "b" none]
    1 (by decide) (by decide)
  exact ⟨h.1, h.2.1, h.2.2.2⟩

end MetacallPlayground
